import Mathlib

/-!
Shallow embedding of `literature_analysis/neural_recording_scale/classify_openalex_glm.py`
(the rate-limited, resumable, retrying batch-classification pipeline) and proofs of the
spec's testable properties about it.

Conventions of the embedding:
* Python strings are `String` / `List Char`; JSON documents are the inductive `JValue`.
* `json.loads` is modelled by `jsonLoads`, a fuel-based recursive-descent parser for the
  JSON grammar accepted by Python's default decoder (objects, arrays, strings with the
  standard escapes, numbers with optional fraction and exponent, `true`/`false`/`null`,
  surrounding whitespace, and rejection of trailing data).  The nonstandard literals
  `NaN`/`Infinity` accepted by CPython and surrogate-pair combining in `\uXXXX` escapes
  are not modelled; no claim depends on them.
* Wall-clock instants (`time.time()`) are rationals; the claims only compare, subtract
  and order timestamps, so no floating-point behavior is involved.
* Fallible Python operations (list indexing, `max` of an empty sequence) return `Except`.
-/

/-- JSON values as produced by `json.loads`.  Object members keep source order and
duplicates, which is irrelevant to every claim (no claim compares two objects).
A number literal is kept as a decimal mantissa and power-of-ten exponent (its value is
`mant * 10 ^ exp10`); Python's int/float distinction is not modelled, and no claim
inspects numeric values. -/
inductive JValue where
  | null : JValue
  | bool (b : Bool) : JValue
  | num (mant : ℤ) (exp10 : ℤ) : JValue
  | str (s : String) : JValue
  | arr (elems : List JValue) : JValue
  | obj (members : List (String × JValue)) : JValue

/-- The whitespace characters skipped between JSON tokens by Python's decoder. -/
def jsonWs (c : Char) : Bool :=
  c = ' ' || c = '\t' || c = '\n' || c = '\r'

/-- Skip inter-token whitespace. -/
def skipWs (cs : List Char) : List Char :=
  cs.dropWhile jsonWs

/-- Value of a hexadecimal digit, for `\uXXXX` string escapes. -/
def hexVal (c : Char) : Option ℕ :=
  if c.isDigit then some (c.toNat - 48)
  else if 'a' ≤ c ∧ c ≤ 'f' then some (c.toNat - 87)
  else if 'A' ≤ c ∧ c ≤ 'F' then some (c.toNat - 55)
  else none

/-- The single-character JSON string escapes. -/
def escChar (e : Char) : Option Char :=
  if e = '"' then some '"'
  else if e = '\\' then some '\\'
  else if e = '/' then some '/'
  else if e = 'b' then some '\x08'
  else if e = 'f' then some '\x0c'
  else if e = 'n' then some '\n'
  else if e = 'r' then some '\r'
  else if e = 't' then some '\t'
  else none

/-- Parse the body of a JSON string after the opening quote; returns the decoded
characters and the input remaining after the closing quote. -/
def parseStringBody : List Char → Option (List Char × List Char)
  | [] => none
  | '"' :: rest => some ([], rest)
  | '\\' :: 'u' :: h1 :: h2 :: h3 :: h4 :: r =>
    match hexVal h1, hexVal h2, hexVal h3, hexVal h4 with
    | some a, some b, some c, some d =>
      (parseStringBody r).map
        (fun p => (Char.ofNat (((a * 16 + b) * 16 + c) * 16 + d) :: p.1, p.2))
    | _, _, _, _ => none
  | '\\' :: e :: r =>
    match escChar e with
    | some c => (parseStringBody r).map (fun p => (c :: p.1, p.2))
    | none => none
  | ['\\'] => none
  | c :: rest =>
    if c.toNat < 32 then none
    else (parseStringBody rest).map (fun p => (c :: p.1, p.2))

/-- Numeric value of a list of decimal digit characters. -/
def digitsToNat (ds : List Char) : ℕ :=
  ds.foldl (fun n c => 10 * n + (c.toNat - 48)) 0

/-- Parse an optional fraction part (`.digits`), returning the fraction digits; a bare
dot is a syntax error. -/
def parseFracDigits : List Char → Option (List Char × List Char)
  | '.' :: r =>
    let p := r.span Char.isDigit
    if p.1 = [] then none
    else some (p.1, p.2)
  | cs => some ([], cs)

/-- Parse an optional exponent part (`e`/`E`, optional sign, digits). -/
def parseExpPart : List Char → Option (ℤ × List Char)
  | [] => some (0, [])
  | c :: r =>
    if c = 'e' ∨ c = 'E' then
      let sp : ℤ × List Char :=
        match r with
        | '+' :: rr => (1, rr)
        | '-' :: rr => (-1, rr)
        | _ => (1, r)
      let p := sp.2.span Char.isDigit
      if p.1 = [] then none else some (sp.1 * (digitsToNat p.1 : ℤ), p.2)
    else some (0, c :: r)

/-- Parse a JSON number (optional minus, integer part without leading zeros,
optional fraction and exponent). -/
def parseNumber (cs : List Char) : Option (JValue × List Char) :=
  let sp : Bool × List Char :=
    match cs with
    | '-' :: r => (true, r)
    | _ => (false, cs)
  let ip := sp.2.span Char.isDigit
  if ip.1 = [] then none
  else if ip.1.length > 1 ∧ ip.1.head? = some '0' then none
  else
    match parseFracDigits ip.2 with
    | none => none
    | some (fds, r2) =>
      match parseExpPart r2 with
      | none => none
      | some (ex, r3) =>
        let mant : ℤ := (digitsToNat ip.1 * 10 ^ fds.length + digitsToNat fds : ℕ)
        some (JValue.num (if sp.1 then -mant else mant) (ex - fds.length), r3)

/-- Intermediate result of one recursive-descent step: a value, an array tail, an
object member, or an object tail. -/
inductive PRes where
  | val (v : JValue)
  | vals (vs : List JValue)
  | memb (kv : String × JValue)
  | membs (kvs : List (String × JValue))

/-- Which production the recursive-descent step is parsing. -/
inductive PMode where
  | value
  | arrayRest
  | arrayMore
  | objectRest
  | objectMore
  | member

/-- One recursive-descent engine for the mutually recursive JSON productions, made a
single function over a mode index so that recursion is structural in the fuel and
evaluation is definitional.  `value` parses one JSON value; `arrayRest`/`objectRest`
parse the remainder after `[` / `\x7b`; `arrayMore`/`objectMore` parse `, item`
repetitions up to the closing bracket; `member` parses one `"key": value` pair. -/
def parseStep : ℕ → PMode → List Char → Option (PRes × List Char)
  | 0, _, _ => none
  | fuel+1, PMode.value, cs =>
    match skipWs cs with
    | 'n' :: 'u' :: 'l' :: 'l' :: rest => some (PRes.val JValue.null, rest)
    | 't' :: 'r' :: 'u' :: 'e' :: rest => some (PRes.val (JValue.bool true), rest)
    | 'f' :: 'a' :: 'l' :: 's' :: 'e' :: rest => some (PRes.val (JValue.bool false), rest)
    | '"' :: rest =>
      (parseStringBody rest).map (fun p => (PRes.val (JValue.str (String.mk p.1)), p.2))
    | '[' :: rest => parseStep fuel PMode.arrayRest rest
    | '{' :: rest => parseStep fuel PMode.objectRest rest
    | cs' => (parseNumber cs').map (fun p => (PRes.val p.1, p.2))
  | fuel+1, PMode.arrayRest, cs =>
    match skipWs cs with
    | ']' :: rest => some (PRes.val (JValue.arr []), rest)
    | cs' =>
      match parseStep fuel PMode.value cs' with
      | some (PRes.val v, r) =>
        match parseStep fuel PMode.arrayMore r with
        | some (PRes.vals vs, r2) => some (PRes.val (JValue.arr (v :: vs)), r2)
        | _ => none
      | _ => none
  | fuel+1, PMode.arrayMore, cs =>
    match skipWs cs with
    | ']' :: rest => some (PRes.vals [], rest)
    | ',' :: rest =>
      match parseStep fuel PMode.value rest with
      | some (PRes.val v, r) =>
        match parseStep fuel PMode.arrayMore r with
        | some (PRes.vals vs, r2) => some (PRes.vals (v :: vs), r2)
        | _ => none
      | _ => none
    | _ => none
  | fuel+1, PMode.objectRest, cs =>
    match skipWs cs with
    | '}' :: rest => some (PRes.val (JValue.obj []), rest)
    | cs' =>
      match parseStep fuel PMode.member cs' with
      | some (PRes.memb kv, r) =>
        match parseStep fuel PMode.objectMore r with
        | some (PRes.membs kvs, r2) => some (PRes.val (JValue.obj (kv :: kvs)), r2)
        | _ => none
      | _ => none
  | fuel+1, PMode.objectMore, cs =>
    match skipWs cs with
    | '}' :: rest => some (PRes.membs [], rest)
    | ',' :: rest =>
      match parseStep fuel PMode.member rest with
      | some (PRes.memb kv, r) =>
        match parseStep fuel PMode.objectMore r with
        | some (PRes.membs kvs, r2) => some (PRes.membs (kv :: kvs), r2)
        | _ => none
      | _ => none
    | _ => none
  | fuel+1, PMode.member, cs =>
    match skipWs cs with
    | '"' :: rest =>
      match parseStringBody rest with
      | none => none
      | some (k, r) =>
        match skipWs r with
        | ':' :: r2 =>
          match parseStep fuel PMode.value r2 with
          | some (PRes.val v, r3) => some (PRes.memb (String.mk k, v), r3)
          | _ => none
        | _ => none
    | _ => none

/-- Parse one JSON value with the given fuel. -/
def parseValue (fuel : ℕ) (cs : List Char) : Option (JValue × List Char) :=
  match parseStep fuel PMode.value cs with
  | some (PRes.val v, r) => some (v, r)
  | _ => none

/-- Model of Python's `json.loads`: parse one JSON document, allowing surrounding
whitespace and rejecting any trailing data (`Extra data` in CPython).  The fuel
`2 * length + 4` dominates the recursion depth of any input of this length. -/
def jsonLoads (cs : List Char) : Option JValue :=
  match parseValue (2 * cs.length + 4) cs with
  | some (v, rest) => if skipWs rest = [] then some v else none
  | none => none

/-- `json.loads` restricted by `isinstance(obj, list)`: the result only when the
document is a JSON array. -/
def jsonLoadsArr (cs : List Char) : Option (List JValue) :=
  match jsonLoads cs with
  | some (JValue.arr xs) => some xs
  | _ => none

/-- Whitespace stripped from both ends by Python's `str.strip()`. -/
def pyWs (c : Char) : Bool :=
  c = ' ' || c = '\t' || c = '\n' || c = '\r' || c = '\x0b' || c = '\x0c'

/-- Python's `text.strip()`. -/
def pystrip (cs : List Char) : List Char :=
  ((cs.dropWhile pyWs).reverse.dropWhile pyWs).reverse

/-- Python's `text.find(c)`: index of the first occurrence, `none` for `-1`. -/
def idxOfFirst (c : Char) : List Char → Option ℕ
  | [] => none
  | x :: xs => if x = c then some 0 else (idxOfFirst c xs).map (· + 1)

/-- Python's `text.rfind(c)`: index of the last occurrence, `none` for `-1`. -/
def idxOfLast (c : Char) (cs : List Char) : Option ℕ :=
  (idxOfFirst c cs.reverse).map (fun i => cs.length - 1 - i)

/-- Embedding of `parse_model_json` (classify_openalex_glm.py lines 116-134): strip the
text; try a direct `json.loads` and return it when it is a list; otherwise locate the
first `[` and the last `]`, and when both exist with `end > start` try to parse that
inclusive slice, returning it only when it is a list; every other path yields `None`. -/
def parse_model_json (text : String) : Option (List JValue) :=
  let cs := pystrip text.data
  match jsonLoadsArr cs with
  | some xs => some xs
  | none =>
    match idxOfFirst '[' cs, idxOfLast ']' cs with
    | some s, some e =>
      if s < e then jsonLoadsArr ((cs.drop s).take (e + 1 - s))
      else none
    | some _, none => none
    | none, _ => none

/-- The bracket-extraction fallback exactly as the spec words it: the substring enclosed
by the first `[` and the last `]` (inclusive), when both exist in that order. -/
def bracketSlice (cs : List Char) : Option (List Char) :=
  match idxOfFirst '[' cs, idxOfLast ']' cs with
  | some s, some e => if s < e then some ((cs.drop s).take (e + 1 - s)) else none
  | some _, none => none
  | none, _ => none

/-- Modelled from the spec: response parsing as §4.3 describes it — a direct JSON-array
parse of the trimmed text, else a JSON-array parse of the first-`[`-to-last-`]` slice,
else null. -/
def specResponseParse (text : String) : Option (List JValue) :=
  let cs := pystrip text.data
  match jsonLoadsArr cs with
  | some xs => some xs
  | none => (bracketSlice cs).bind jsonLoadsArr

/-- C6: for every response text, `parse_model_json` equals the spec's three-step
strategy (direct trimmed JSON-array parse, then bracket-extraction fallback, else null);
and the concrete text `Here you go: [\x7b"id": 1, "promising": true\x7d]` fails the
direct parse but succeeds through the bracket-extraction fallback with a non-null
array. -/
theorem parse_model_json_matches_spec_strategy :
    (∀ text : String, parse_model_json text = specResponseParse text)
    ∧ parse_model_json "Here you go: [\x7b\"id\": 1, \"promising\": true\x7d]"
        = some [JValue.obj [("id", JValue.num 1 0), ("promising", JValue.bool true)]]
    ∧ jsonLoadsArr (pystrip ("Here you go: [\x7b\"id\": 1, \"promising\": true\x7d]").data)
        = none := by
  refine ⟨fun text => ?_, ?_, ?_⟩
  · simp only [parse_model_json, specResponseParse, bracketSlice]
    cases hj : jsonLoadsArr (pystrip text.data) with
    | some xs => rfl
    | none =>
      cases hf : idxOfFirst '[' (pystrip text.data) with
      | none => rfl
      | some s =>
        cases hl : idxOfLast ']' (pystrip text.data) with
        | none => rfl
        | some e => by_cases h : s < e <;> simp [h, Option.bind]
  · rfl
  · rfl

/-- Python exceptions that `reconstruct_abstract` can raise: `ValueError` from `max()`
of an empty sequence, `IndexError` from an out-of-range list index. -/
inductive PyError where
  | valueError : PyError
  | indexError : PyError
deriving DecidableEq

/-- Python's `words[pos] = word` for `pos : int`: a non-negative index must be below the
length, a negative index counts from the end (`len + pos`), anything else raises
`IndexError`. -/
def pyListSet (l : List String) (pos : ℤ) (w : String) : Except PyError (List String) :=
  if 0 ≤ pos ∧ pos < (l.length : ℤ) then Except.ok (l.set pos.toNat w)
  else if -(l.length : ℤ) ≤ pos ∧ pos < 0 then
    Except.ok (l.set ((l.length : ℤ) + pos).toNat w)
  else Except.error PyError.indexError

/-- The inner loop `for pos in positions: words[pos] = word`. -/
def fillPositions (w : String) : List ℤ → List String → Except PyError (List String)
  | [], ws => Except.ok ws
  | p :: rest, ws =>
    match pyListSet ws p w with
    | Except.ok ws' => fillPositions w rest ws'
    | Except.error e => Except.error e

/-- The outer loop `for word, positions in inv.items()`. -/
def fillWords : List (String × List ℤ) → List String → Except PyError (List String)
  | [], ws => Except.ok ws
  | (w, ps) :: rest, ws =>
    match fillPositions w ps ws with
    | Except.ok ws' => fillWords rest ws'
    | Except.error e => Except.error e

/-- Python's `" ".join(words)` at the character level. -/
def joinWords : List (List Char) → List Char
  | [] => []
  | [w] => w
  | w :: ws => w ++ ' ' :: joinWords ws

/-- Splitting a character sequence on every single space, the semantics of Python's
`s.split(" ")` (empty segments are kept). -/
def splitOnSpace : List Char → List (List Char)
  | [] => [[]]
  | c :: cs =>
    let r := splitOnSpace cs
    if c = ' ' then [] :: r
    else
      match r with
      | [] => [[c]]
      | w :: ws => (c :: w) :: ws

/-- Embedding of `reconstruct_abstract` (classify_openalex_glm.py lines 72-81).  A falsy
input (`None` or an empty dict, both modelled as `[]`) yields the empty string; the dict
is otherwise a key-ordered association list.  `max` of the flattened positions raises
`ValueError` when no position exists; `words` is `[""] * (max_pos + 1)` (empty for a
negative count, as in Python); each word is then written at each of its positions with
Python list-index semantics, and the slots are joined with single spaces. -/
def reconstruct_abstract (inv : List (String × List ℤ)) : Except PyError String :=
  if inv.isEmpty then Except.ok ""
  else
    match ((inv.map Prod.snd).flatten).max? with
    | none => Except.error PyError.valueError
    | some maxPos =>
      match fillWords inv (List.replicate (maxPos + 1).toNat "") with
      | Except.ok ws => Except.ok (String.mk (joinWords (ws.map String.data)))
      | Except.error e => Except.error e

theorem pyListSet_nonneg {l : List String} {p : ℤ} {w : String} (h0 : 0 ≤ p)
    (hlt : p < (l.length : ℤ)) : pyListSet l p w = Except.ok (l.set p.toNat w) := by
  simp [pyListSet, h0, hlt]

theorem pyListSet_ok {l : List String} {p : ℤ} {w : String}
    (hge : -(l.length : ℤ) ≤ p) (hlt : p < (l.length : ℤ)) :
    ∃ l', pyListSet l p w = Except.ok l' ∧ l'.length = l.length ∧
      (∀ x ∈ l', x ∈ l ∨ x = w) := by
  by_cases h0 : 0 ≤ p
  · exact ⟨l.set p.toNat w, pyListSet_nonneg h0 hlt, List.length_set l _ _,
      fun x hx => List.mem_or_eq_of_mem_set hx⟩
  · refine ⟨l.set ((l.length : ℤ) + p).toNat w, ?_, List.length_set l _ _,
      fun x hx => List.mem_or_eq_of_mem_set hx⟩
    have hneg : p < 0 := by omega
    simp [pyListSet, h0, hge, hneg]

theorem fillPositions_ok {w : String} :
    ∀ (ps : List ℤ) (ws : List String),
      (∀ p ∈ ps, -(ws.length : ℤ) ≤ p ∧ p < (ws.length : ℤ)) →
      ∃ ws', fillPositions w ps ws = Except.ok ws' ∧ ws'.length = ws.length ∧
        (∀ x ∈ ws', x ∈ ws ∨ x = w)
  | [], ws, _ => ⟨ws, rfl, rfl, fun x hx => Or.inl hx⟩
  | p :: rest, ws, h => by
    obtain ⟨ws1, hset, hlen, hmem⟩ :=
      pyListSet_ok (l := ws) (w := w) (h p (by simp)).1 (h p (by simp)).2
    obtain ⟨ws', hfill, hlen', hmem'⟩ := fillPositions_ok (w := w) rest ws1
      (fun q hq => by rw [hlen]; exact h q (by simp [hq]))
    refine ⟨ws', ?_, by rw [hlen', hlen], ?_⟩
    · simp [fillPositions, hset, hfill]
    · intro x hx
      cases hmem' x hx with
      | inl hx1 => exact hmem x hx1
      | inr hx1 => exact Or.inr hx1

theorem fillWords_ok :
    ∀ (inv : List (String × List ℤ)) (ws : List String),
      (∀ e ∈ inv, ∀ p ∈ e.2, -(ws.length : ℤ) ≤ p ∧ p < (ws.length : ℤ)) →
      ∃ ws', fillWords inv ws = Except.ok ws' ∧ ws'.length = ws.length ∧
        (∀ x ∈ ws', x ∈ ws ∨ ∃ e ∈ inv, x = e.1)
  | [], ws, _ => ⟨ws, rfl, rfl, fun x hx => Or.inl hx⟩
  | (w, ps) :: rest, ws, h => by
    obtain ⟨ws1, hfill, hlen, hmem⟩ := fillPositions_ok (w := w) ps ws
      (fun p hp => h (w, ps) (by simp) p hp)
    obtain ⟨ws', hfill', hlen', hmem'⟩ := fillWords_ok rest ws1
      (fun e he p hp => by rw [hlen]; exact h e (by simp [he]) p hp)
    refine ⟨ws', ?_, by rw [hlen', hlen], ?_⟩
    · simp [fillWords, hfill, hfill']
    · intro x hx
      cases hmem' x hx with
      | inl hx1 =>
        cases hmem x hx1 with
        | inl hx2 => exact Or.inl hx2
        | inr hx2 => exact Or.inr ⟨(w, ps), by simp, hx2⟩
      | inr hx1 =>
        obtain ⟨e, he, hxe⟩ := hx1
        exact Or.inr ⟨e, by simp [he], hxe⟩

theorem fillPositions_sets {w : String} :
    ∀ (ps : List ℤ) (ws : List String),
      (∀ p ∈ ps, 0 ≤ p ∧ p < (ws.length : ℤ)) →
      ∃ ws', fillPositions w ps ws = Except.ok ws' ∧ ws'.length = ws.length ∧
        (∀ k : ℕ, (k : ℤ) ∉ ps → ws'[k]? = ws[k]?) ∧
        (∀ p ∈ ps, ws'[p.toNat]? = some w) ∧
        (∀ x ∈ ws', x ∈ ws ∨ x = w)
  | [], ws, _ => ⟨ws, rfl, rfl, fun _ _ => rfl, by simp, fun x hx => Or.inl hx⟩
  | p :: rest, ws, h => by
    have hp := h p (by simp)
    have hset : pyListSet ws p w = Except.ok (ws.set p.toNat w) :=
      pyListSet_nonneg hp.1 hp.2
    obtain ⟨ws', hfill, hlen, hunt, hsets, hmem⟩ :=
      fillPositions_sets (w := w) rest (ws.set p.toNat w)
        (fun q hq => by rw [List.length_set]; exact h q (by simp [hq]))
    refine ⟨ws', by simp [fillPositions, hset, hfill], by rw [hlen, List.length_set],
      ?_, ?_, ?_⟩
    · intro k hk
      have hk1 : (k : ℤ) ∉ rest := fun hm => hk (by simp [hm])
      have hk2 : (k : ℤ) ≠ p := fun he => hk (by simp [he])
      rw [hunt k hk1]
      exact List.getElem?_set_ne (by omega)
    · intro q hq
      rcases (by simpa using hq : q = p ∨ q ∈ rest) with rfl | hq'
      · by_cases hqr : q ∈ rest
        · exact hsets q hqr
        · have hcast : ((q.toNat : ℤ)) = q := by omega
          rw [hunt q.toNat (by rw [hcast]; exact hqr)]
          exact List.getElem?_set_self (by omega)
      · exact hsets q hq'
    · intro x hx
      cases hmem x hx with
      | inl hx1 => exact (List.mem_or_eq_of_mem_set hx1).imp id id
      | inr hx1 => exact Or.inr hx1

theorem fillWords_sets :
    ∀ (inv : List (String × List ℤ)) (ws : List String),
      (∀ e ∈ inv, ∀ p ∈ e.2, 0 ≤ p ∧ p < (ws.length : ℤ)) →
      ((inv.map Prod.snd).flatten).Nodup →
      ∃ ws', fillWords inv ws = Except.ok ws' ∧ ws'.length = ws.length ∧
        (∀ k : ℕ, (k : ℤ) ∉ (inv.map Prod.snd).flatten → ws'[k]? = ws[k]?) ∧
        (∀ e ∈ inv, ∀ p ∈ e.2, ws'[p.toNat]? = some e.1) ∧
        (∀ x ∈ ws', x ∈ ws ∨ ∃ e ∈ inv, x = e.1)
  | [], ws, _, _ => ⟨ws, rfl, rfl, fun _ _ => rfl, by simp, fun x hx => Or.inl hx⟩
  | (w, ps) :: rest, ws, h, hnd => by
    have hflat : (((w, ps) :: rest).map Prod.snd).flatten
        = ps ++ (rest.map Prod.snd).flatten := by simp
    rw [hflat] at hnd
    rw [List.nodup_append] at hnd
    obtain ⟨ws1, hfill, hlen, hunt1, hsets1, hmem1⟩ :=
      fillPositions_sets (w := w) ps ws (fun p hp => h (w, ps) (by simp) p hp)
    obtain ⟨ws', hfill', hlen', hunt', hsets', hmem'⟩ :=
      fillWords_sets rest ws1
        (fun e he p hp => by rw [hlen]; exact h e (by simp [he]) p hp) hnd.2.1
    refine ⟨ws', by simp [fillWords, hfill, hfill'], by rw [hlen', hlen], ?_, ?_, ?_⟩
    · intro k hk
      rw [hflat] at hk
      have hk1 : (k : ℤ) ∉ (rest.map Prod.snd).flatten := fun hm => hk (by simp [hm])
      have hk2 : (k : ℤ) ∉ ps := fun hm => hk (by simp [hm])
      rw [hunt' k hk1]
      exact hunt1 k hk2
    · intro e he p hp
      rcases (by simpa using he : e = (w, ps) ∨ e ∈ rest) with rfl | he'
      · have hp0 : (0 : ℤ) ≤ p := (h (w, ps) (by simp) p hp).1
        have hpd : p ∉ (rest.map Prod.snd).flatten := hnd.2.2 hp
        have hcast : ((p.toNat : ℤ)) = p := by omega
        rw [hunt' p.toNat (by rw [hcast]; exact hpd)]
        exact hsets1 p hp
      · exact hsets' e he' p hp
    · intro x hx
      cases hmem' x hx with
      | inl hx1 =>
        cases hmem1 x hx1 with
        | inl hx2 => exact Or.inl hx2
        | inr hx2 => exact Or.inr ⟨(w, ps), by simp, hx2⟩
      | inr hx1 =>
        obtain ⟨e, he, hxe⟩ := hx1
        exact Or.inr ⟨e, by simp [he], hxe⟩

theorem splitOnSpace_no_space : ∀ w : List Char, ' ' ∉ w → splitOnSpace w = [w]
  | [], _ => rfl
  | c :: cs, h => by
    have hc : ¬ (c = ' ') := fun he => h (by simp [he])
    have ih := splitOnSpace_no_space cs (fun hm => h (by simp [hm]))
    simp [splitOnSpace, hc, ih]

theorem splitOnSpace_append_space : ∀ (w t : List Char), ' ' ∉ w →
    splitOnSpace (w ++ ' ' :: t) = w :: splitOnSpace t
  | [], t, _ => by simp [splitOnSpace]
  | c :: w', t, h => by
    have hc : ¬ (c = ' ') := fun he => h (by simp [he])
    have ih := splitOnSpace_append_space w' t (fun hm => h (by simp [hm]))
    simp [splitOnSpace, hc, ih]

theorem splitOnSpace_joinWords : ∀ wss : List (List Char), wss ≠ [] →
    (∀ w ∈ wss, ' ' ∉ w) → splitOnSpace (joinWords wss) = wss
  | [], hne, _ => absurd rfl hne
  | [w], _, h => by
    simpa [joinWords] using splitOnSpace_no_space w (h w (by simp))
  | w :: w2 :: ws, _, h => by
    have ih := splitOnSpace_joinWords (w2 :: ws) (by simp)
      (fun x hx => h x (by simp at hx ⊢; tauto))
    have hj : joinWords (w :: w2 :: ws) = w ++ ' ' :: joinWords (w2 :: ws) := rfl
    rw [hj, splitOnSpace_append_space w _ (h w (by simp)), ih]

/-- C7: for every inverted-index input with a well-formed shape (non-negative
positions, each position listed once overall — as in a genuine inverted index — and
space-free words) and at least one position (so that Python's `max` is defined),
`reconstruct_abstract` places each word at every one of its listed positions and
produces a string whose space-split token count is `max(position) + 1`; an empty or
absent input yields the empty string. -/
theorem reconstruct_abstract_places_words :
    (∀ (inv : List (String × List ℤ)) (maxPos : ℤ),
      ((inv.map Prod.snd).flatten).max? = some maxPos →
      (∀ e ∈ inv, ∀ p ∈ e.2, 0 ≤ p) →
      ((inv.map Prod.snd).flatten).Nodup →
      (∀ e ∈ inv, ' ' ∉ e.1.data) →
      ∃ s, reconstruct_abstract inv = Except.ok s
        ∧ (splitOnSpace s.data).length = maxPos.toNat + 1
        ∧ ∀ e ∈ inv, ∀ p ∈ e.2, (splitOnSpace s.data)[p.toNat]? = some e.1.data)
    ∧ reconstruct_abstract [] = Except.ok "" := by
  refine ⟨fun inv maxPos hmax hpos hnd hsp => ?_, rfl⟩
  have hflne : (inv.map Prod.snd).flatten ≠ [] := by
    intro he
    rw [he] at hmax
    simp at hmax
  have hinvne : ¬ inv.isEmpty := by
    intro he
    rw [List.isEmpty_iff] at he
    subst he
    simp at hflne
  have hub : ∀ b ∈ (inv.map Prod.snd).flatten, b ≤ maxPos :=
    (List.max?_le_iff (fun _ _ _ => max_le_iff) hmax).mp (le_refl maxPos)
  have hmemflat : ∀ p ∈ (inv.map Prod.snd).flatten, 0 ≤ p := by
    intro p hp
    rw [List.mem_flatten] at hp
    obtain ⟨l, hl, hpl⟩ := hp
    rw [List.mem_map] at hl
    obtain ⟨e, he, rfl⟩ := hl
    exact hpos e he p hpl
  have h0 : 0 ≤ maxPos :=
    hmemflat maxPos (List.max?_mem (fun a b => max_choice a b) hmax)
  have hlenrep : (List.replicate (maxPos + 1).toNat "").length = (maxPos + 1).toNat :=
    List.length_replicate _ _
  have hbounds : ∀ e ∈ inv, ∀ p ∈ e.2,
      0 ≤ p ∧ p < ((List.replicate (maxPos + 1).toNat "").length : ℤ) := by
    intro e he p hp
    have hmem : p ∈ (inv.map Prod.snd).flatten := by
      rw [List.mem_flatten]
      exact ⟨e.2, List.mem_map.mpr ⟨e, he, rfl⟩, hp⟩
    have := hub p hmem
    have := hpos e he p hp
    rw [hlenrep]
    omega
  obtain ⟨ws', hfill, hlen, _, hsets, hmemel⟩ :=
    fillWords_sets inv (List.replicate (maxPos + 1).toNat "") hbounds hnd
  have hrec : reconstruct_abstract inv
      = Except.ok (String.mk (joinWords (ws'.map String.data))) := by
    simp only [reconstruct_abstract, hinvne, hmax, hfill]
    rfl
  have hnospace : ∀ cl ∈ ws'.map String.data, ' ' ∉ cl := by
    intro cl hcl
    rw [List.mem_map] at hcl
    obtain ⟨x, hx, rfl⟩ := hcl
    cases hmemel x hx with
    | inl hx1 =>
      rw [List.eq_of_mem_replicate hx1]
      simp
    | inr hx1 =>
      obtain ⟨e, he, rfl⟩ := hx1
      exact hsp e he
  have hlen1 : ws'.length = (maxPos + 1).toNat := by rw [hlen, hlenrep]
  have hne : ws'.map String.data ≠ [] := by
    intro he
    have := congrArg List.length he
    simp [hlen1] at this
    omega
  have hsplit : splitOnSpace (String.mk (joinWords (ws'.map String.data))).data
      = ws'.map String.data := splitOnSpace_joinWords _ hne hnospace
  refine ⟨String.mk (joinWords (ws'.map String.data)), hrec, ?_, ?_⟩
  · rw [hsplit]
    simp only [List.length_map, hlen1]
    omega
  · intro e he p hp
    rw [hsplit, List.getElem?_map, hsets e he p hp]
    rfl

/-- Witness for `reconstruct_abstract_places_words` at the concrete inverted index
`\x7b"hello": [0], "brave": [2]\x7d`: token count is 3 and both words sit at their
positions. -/
theorem reconstruct_abstract_places_words_witness :
    ∃ s, reconstruct_abstract [("hello", [0]), ("brave", [2])] = Except.ok s
      ∧ (splitOnSpace s.data).length = (2 : ℤ).toNat + 1
      ∧ ∀ e ∈ [("hello", ([0] : List ℤ)), ("brave", [2])], ∀ p ∈ e.2,
          (splitOnSpace s.data)[p.toNat]? = some e.1.data :=
  reconstruct_abstract_places_words.1 [("hello", [0]), ("brave", [2])] 2
    (by decide) (by decide) (by decide) (by decide)

/-- C9 counterexample: the input `\x7b"a": [0, 1], "b": [-1]\x7d` contains the negative
position `-1`, yet `reconstruct_abstract` does not signal an error — Python's negative
indexing silently wraps `words[-1]` to the last slot and the call returns `"a b"`. -/
theorem reconstruct_abstract_negative_not_rejected :
    reconstruct_abstract [("a", [0, 1]), ("b", [-1])] = Except.ok "a b" := rfl

/-- C9 amended: negative positions are not rejected in general.  Whenever the maximum
position is non-negative and every position `p` satisfies `-(max_pos + 1) ≤ p`, the
function silently returns a string (negative positions wrap to `max_pos + 1 + p`); an
`IndexError` arises only for positions below `-(max_pos + 1)`, and a `ValueError` when a
non-empty index lists no positions at all.  For well-formed inputs there are no error
conditions. -/
theorem reconstruct_abstract_negative_amended :
    ∀ (inv : List (String × List ℤ)) (maxPos : ℤ),
      ((inv.map Prod.snd).flatten).max? = some maxPos →
      0 ≤ maxPos →
      (∀ e ∈ inv, ∀ p ∈ e.2, -(maxPos + 1) ≤ p) →
      ∃ s, reconstruct_abstract inv = Except.ok s := by
  intro inv maxPos hmax h0 hlb
  have hflne : (inv.map Prod.snd).flatten ≠ [] := by
    intro he
    rw [he] at hmax
    simp at hmax
  have hinvne : ¬ inv.isEmpty := by
    intro he
    rw [List.isEmpty_iff] at he
    subst he
    simp at hflne
  have hub : ∀ b ∈ (inv.map Prod.snd).flatten, b ≤ maxPos :=
    (List.max?_le_iff (fun _ _ _ => max_le_iff) hmax).mp (le_refl maxPos)
  have hbounds : ∀ e ∈ inv, ∀ p ∈ e.2,
      -(((List.replicate (maxPos + 1).toNat "").length : ℤ))
        ≤ p ∧ p < ((List.replicate (maxPos + 1).toNat "").length : ℤ) := by
    intro e he p hp
    have hmem : p ∈ (inv.map Prod.snd).flatten := by
      rw [List.mem_flatten]
      exact ⟨e.2, List.mem_map.mpr ⟨e, he, rfl⟩, hp⟩
    have h1 := hub p hmem
    have h2 := hlb e he p hp
    rw [List.length_replicate]
    omega
  obtain ⟨ws', hfill, _, _⟩ := fillWords_ok inv (List.replicate (maxPos + 1).toNat "")
    hbounds
  refine ⟨String.mk (joinWords (ws'.map String.data)), ?_⟩
  simp only [reconstruct_abstract, hinvne, hmax, hfill]
  rfl

/-- Witness for `reconstruct_abstract_negative_amended` at the counterexample input:
all positions of `\x7b"a": [0, 1], "b": [-1]\x7d` lie in `[-(1+1), 1]`, so the call
returns a string. -/
theorem reconstruct_abstract_negative_amended_witness :
    ∃ s, reconstruct_abstract [("a", [0, 1]), ("b", [-1])] = Except.ok s :=
  reconstruct_abstract_negative_amended [("a", [0, 1]), ("b", [-1])] 1
    (by decide) (by decide) (by decide)

/-- One output-log record (classify_openalex_glm.py lines 266-271). -/
structure ClassificationResult where
  batch_start_index : ℕ
  input_ids : List String
  model_raw : Option String
  model_parsed : Option (List JValue)

/-- What one `call_openrouter` attempt produces, as seen by `process_batch`: either the
response text (the call returned) or the message of the exception it raised (transport
errors and non-2xx statuses both surface as exceptions via `raise_for_status`). -/
inductive AttemptOutcome where
  | resp (text : String) : AttemptOutcome
  | exc (msg : String) : AttemptOutcome
deriving DecidableEq

/-- Observable side effects of the retry loop: an outbound call attempt, or a
`time.sleep` of the given whole seconds. -/
inductive Event where
  | call (attempt : ℕ) : Event
  | sleep (secs : ℕ) : Event
deriving DecidableEq

/-- Is this event an outbound call? -/
def Event.isCall : Event → Bool
  | Event.call _ => true
  | Event.sleep _ => false

/-- The local variables of the retry loop in `process_batch`. -/
structure LoopSt where
  response_text : Option String
  parsed : Option (List JValue)
  error_msg : Option String

/-- Python's `a or b` for optional strings (`None` and `""` are falsy). -/
def pyOrStr (a b : Option String) : Option String :=
  match a with
  | some s => if s = "" then b else some s
  | none => b

/-- Python truthiness of an optional string. -/
def optTruthy (o : Option String) : Bool :=
  match o with
  | some s => decide (s ≠ "")
  | none => false

/-- Did this attempt fail (an exception, or a response whose body does not parse)? -/
def attemptFails (o : AttemptOutcome) : Bool :=
  match o with
  | AttemptOutcome.exc _ => true
  | AttemptOutcome.resp t => (parse_model_json t).isNone

/-- The message `process_batch` records for a failed attempt. -/
def failMsg : AttemptOutcome → String
  | AttemptOutcome.resp _ => "parse_error"
  | AttemptOutcome.exc m => "exception: " ++ m

/-- Embedding of the `for attempt in range(1, max_retries + 1)` loop of `process_batch`
(classify_openalex_glm.py lines 249-261): each iteration calls the service (the
`Event.call`); a response is parsed and a successful parse breaks out of the loop; a
parse failure records `parse_error` and an exception records its message; every failed
iteration sleeps `1 + attempt` seconds before the next.  `rem` counts the remaining
iterations and `attempt` is the 1-based iteration number. -/
def retryAux (outcomes : ℕ → AttemptOutcome) : ℕ → ℕ → LoopSt → LoopSt × List Event
  | 0, _, st => (st, [])
  | rem+1, attempt, st =>
    match outcomes attempt with
    | AttemptOutcome.resp t =>
      let parsed := parse_model_json t
      if parsed.isSome then
        ({ st with response_text := some t, parsed := parsed }, [Event.call attempt])
      else
        let r := retryAux outcomes rem (attempt + 1)
          { response_text := some t, parsed := parsed, error_msg := some "parse_error" }
        (r.1, Event.call attempt :: Event.sleep (1 + attempt) :: r.2)
    | AttemptOutcome.exc m =>
      let r := retryAux outcomes rem (attempt + 1)
        { st with error_msg := some ("exception: " ++ m) }
      (r.1, Event.call attempt :: Event.sleep (1 + attempt) :: r.2)

/-- Embedding of `process_batch` (classify_openalex_glm.py lines 236-276): run the retry
loop from attempt 1 with all locals `None`; afterwards, if nothing parsed and an error
message is truthy, `response_text = response_text or error_msg`; the record always
carries the batch's start index and the ordered ids of its items.  `pid` models
extracting the already-decoded `id` field of an item; `outcomes` supplies what each
attempt's call would produce.  The returned event list is the loop's call/sleep trace. -/
def process_batch (maxRetries : ℕ) (outcomes : ℕ → AttemptOutcome) (pid : α → String)
    (batch_start_index : ℕ) (batch_data : List α) : ClassificationResult × List Event :=
  let r := retryAux outcomes maxRetries 1 ⟨none, none, none⟩
  let response_text :=
    if r.1.parsed.isNone && optTruthy r.1.error_msg then
      pyOrStr r.1.response_text r.1.error_msg
    else r.1.response_text
  (⟨batch_start_index, batch_data.map pid, response_text, r.1.parsed⟩, r.2)

/-- The driver's dispatch loop (classify_openalex_glm.py lines 278-281): every batch is
submitted and processed by `process_batch`; one record per batch is written.  `k`
numbers the batches so each can have its own attempt outcomes.  Workers may interleave
and the log may be written in completion order; the claims herein do not depend on
output order, so the sequential order is used. -/
def dispatchFrom (maxRetries : ℕ) (env : ℕ → ℕ → AttemptOutcome) (pid : α → String) :
    ℕ → List (ℕ × List α) → List ClassificationResult × List Event
  | _, [] => ([], [])
  | k, b :: rest =>
    let r := process_batch maxRetries (env k) pid b.1 b.2
    let rs := dispatchFrom maxRetries env pid (k + 1) rest
    (r.1 :: rs.1, r.2 ++ rs.2)

/-- Dispatch all batches (worker-pool width does not affect which records are
produced). -/
def dispatchAll (maxRetries : ℕ) (env : ℕ → ℕ → AttemptOutcome) (pid : α → String)
    (batches : List (ℕ × List α)) : List ClassificationResult × List Event :=
  dispatchFrom maxRetries env pid 0 batches

/-- The cap check and dispatch (classify_openalex_glm.py lines 211-213 and 278-281):
if the planned number of calls (one per batch) exceeds the daily cap, `SystemExit` is
raised before the executor ever starts — no events happen; otherwise every batch is
dispatched. -/
def capCheckAndDispatch (dailyCap maxRetries : ℕ) (env : ℕ → ℕ → AttemptOutcome)
    (pid : α → String) (batches : List (ℕ × List α)) :
    Except String (List ClassificationResult) × List Event :=
  if batches.length > dailyCap then
    (Except.error "planned calls exceed daily_call_cap", [])
  else
    (Except.ok (dispatchAll maxRetries env pid batches).1,
      (dispatchAll maxRetries env pid batches).2)

/-- Embedding of the input slicing (classify_openalex_glm.py lines 161-164):
`if args.start: lines = lines[args.start:]` and `if args.max: lines = lines[:args.max]`.
Both guards use Python truthiness: `start = 0` skips the drop, `max` of `None` or `0`
skips the truncation. -/
def sliceLines (start : ℕ) (maxRecords : Option ℕ) (lines : List α) : List α :=
  let l1 := if start ≠ 0 then lines.drop start else lines
  match maxRecords with
  | some m => if m ≠ 0 then l1.take m else l1
  | none => l1

/-- The `for i in range(0, len(lines), batch_size)` chunking loop with batch size
`Bp + 1`; `i` is the running offset into the sliced lines, and `i + startOfs` is the
recorded `batch_start_index`.  The fuel is always at least the list length, which the
wrapper `chunkBatches` supplies; it only makes the recursion structural. -/
def chunkAuxF (Bp startOfs : ℕ) : ℕ → ℕ → List α → List (ℕ × List α)
  | 0, _, _ => []
  | _, _, [] => []
  | fuel+1, i, x :: xs =>
    (i + startOfs, (x :: xs).take (Bp + 1))
      :: chunkAuxF Bp startOfs fuel (i + (Bp + 1)) (xs.drop Bp)

/-- Embedding of the batch-building loop (classify_openalex_glm.py lines 181-201):
partition the sliced lines into batches of `B` in original order, recording
`i + args.start` as each batch's start index.  (`range` with step 0 raises in Python;
`B = 0` is never used and returns `[]` here.) -/
def chunkBatches (B startOfs : ℕ) (lines : List α) : List (ℕ × List α) :=
  match B with
  | 0 => []
  | Bp+1 => chunkAuxF Bp startOfs lines.length 0 lines

/-- Embedding of the resume filter (classify_openalex_glm.py lines 203-209): only when
the set of previously-processed ids is non-empty, drop every batch all of whose member
ids are already in that set. -/
def filterResume (processed : List String) (pid : α → String)
    (batches : List (ℕ × List α)) : List (ℕ × List α) :=
  if processed.isEmpty then batches
  else batches.filter (fun b => !(b.2.all (fun r => processed.contains (pid r))))

/-- C10: with `--max 0` no truncation is applied — every record after the start offset
is processed, exactly as with `--max` absent — and with `start = 0` the offset slice is
skipped (both guards are Python truthiness tests). -/
theorem sliceLines_max_zero_means_no_limit :
    ∀ (α : Type) (start : ℕ) (lines : List α),
      sliceLines start (some 0) lines = lines.drop start
      ∧ sliceLines start none lines = lines.drop start
      ∧ sliceLines 0 (some 0) lines = lines := by
  intro α start lines
  refine ⟨?_, ?_, ?_⟩ <;> by_cases h : start = 0 <;> simp [sliceLines, h]

/-- C2: a batch survives the resume filter exactly when some member id is not in the
resume set — a fully covered batch is dropped, and any batch with an uncovered id is
re-submitted whole (no item-level deduplication).  Batches produced by the builder are
never empty, hence the nonemptiness hypothesis. -/
theorem filterResume_drops_iff :
    ∀ (α : Type) (processed : List String) (pid : α → String)
      (batches : List (ℕ × List α)) (b : ℕ × List α),
      b ∈ batches → b.2 ≠ [] →
      (b ∈ filterResume processed pid batches ↔ ¬ ∀ r ∈ b.2, pid r ∈ processed) := by
  intro α processed pid batches b hb hne
  by_cases hp : processed.isEmpty
  · rw [List.isEmpty_iff] at hp
    subst hp
    have heq : filterResume [] pid batches = batches := by simp [filterResume]
    rw [heq]
    constructor
    · intro _ hall
      obtain ⟨r, hr⟩ := List.exists_mem_of_ne_nil b.2 hne
      exact absurd (hall r hr) (List.not_mem_nil _)
    · intro _
      exact hb
  · rw [filterResume, if_neg (by simpa using hp), List.mem_filter]
    simp [hb, List.all_eq_true, List.contains, List.elem_iff]

/-- Witness for `filterResume_drops_iff`: with resume set `\x7b"a"\x7d`, the batch
`(0, ["a", "b"])` has the uncovered id `"b"` and is kept in the work queue. -/
theorem filterResume_drops_iff_witness :
    (0, ["a", "b"]) ∈ filterResume ["a"] (fun s => s) [(0, ["a", "b"])] :=
  (filterResume_drops_iff String ["a"] (fun s => s) [(0, ["a", "b"])] (0, ["a", "b"])
    (by decide) (by decide)).mpr (by decide)

theorem dispatchFrom_fields (α : Type) (maxRetries : ℕ) (env : ℕ → ℕ → AttemptOutcome)
    (pid : α → String) :
    ∀ (batches : List (ℕ × List α)) (k : ℕ),
      (dispatchFrom maxRetries env pid k batches).1.map (fun r => r.input_ids)
          = batches.map (fun b => b.2.map pid)
        ∧ (dispatchFrom maxRetries env pid k batches).1.map
            (fun r => r.batch_start_index) = batches.map Prod.fst
  | [], _ => ⟨rfl, rfl⟩
  | b :: rest, k => by
    obtain ⟨h1, h2⟩ := dispatchFrom_fields α maxRetries env pid rest (k + 1)
    constructor <;> simp [dispatchFrom, h1, h2, process_batch]

/-- C8: dispatch writes exactly one result record per processed batch, and every
record's `input_ids` is exactly the ordered ids of the batch that produced it (its
`batch_start_index` likewise), regardless of how the attempts for any batch turn out
(`env` is universally quantified over all outcome assignments). -/
theorem classification_result_ids_match_batch :
    ∀ (α : Type) (maxRetries : ℕ) (env : ℕ → ℕ → AttemptOutcome) (pid : α → String)
      (batches : List (ℕ × List α)),
      (dispatchAll maxRetries env pid batches).1.map (fun r => r.input_ids)
          = batches.map (fun b => b.2.map pid)
      ∧ (dispatchAll maxRetries env pid batches).1.map (fun r => r.batch_start_index)
          = batches.map Prod.fst
      ∧ (dispatchAll maxRetries env pid batches).1.length = batches.length := by
  intro α m env pid batches
  obtain ⟨h1, h2⟩ := dispatchFrom_fields α m env pid batches 0
  refine ⟨h1, h2, ?_⟩
  have hl := congrArg List.length h1
  simpa using hl

/-- C5: if the planned batch count exceeds the daily call cap the run aborts with no
event at all — zero outbound calls — and otherwise dispatch proceeds and produces a
record for every planned batch. -/
theorem cap_check_is_fail_fast :
    ∀ (α : Type) (dailyCap maxRetries : ℕ) (env : ℕ → ℕ → AttemptOutcome)
      (pid : α → String) (batches : List (ℕ × List α)),
      (batches.length > dailyCap →
        capCheckAndDispatch dailyCap maxRetries env pid batches
            = (Except.error "planned calls exceed daily_call_cap", [])
        ∧ (capCheckAndDispatch dailyCap maxRetries env pid batches).2.countP
            Event.isCall = 0)
      ∧ (batches.length ≤ dailyCap →
        (capCheckAndDispatch dailyCap maxRetries env pid batches).1
            = Except.ok (dispatchAll maxRetries env pid batches).1
        ∧ (dispatchAll maxRetries env pid batches).1.length = batches.length) := by
  intro α cap m env pid batches
  constructor
  · intro h
    rw [capCheckAndDispatch, if_pos h]
    exact ⟨rfl, rfl⟩
  · intro h
    rw [capCheckAndDispatch, if_neg (by omega)]
    refine ⟨rfl, ?_⟩
    have hl := congrArg List.length (dispatchFrom_fields α m env pid batches 0).1
    simpa using hl

/-- Witness for `cap_check_is_fail_fast`: one planned batch against a cap of zero
aborts with no events, while the same batch against a cap of five is dispatched with
one record. -/
theorem cap_check_is_fail_fast_witness :
    (capCheckAndDispatch 0 3 (fun _ _ => AttemptOutcome.exc "boom") (fun s : String => s)
        [(0, ["a"])]
      = (Except.error "planned calls exceed daily_call_cap", []))
    ∧ ((capCheckAndDispatch 5 3 (fun _ _ => AttemptOutcome.exc "boom")
        (fun s : String => s) [(0, ["a"])]).1
      = Except.ok (dispatchAll 3 (fun _ _ => AttemptOutcome.exc "boom")
          (fun s : String => s) [(0, ["a"])]).1) :=
  ⟨((cap_check_is_fail_fast String 0 3 (fun _ _ => AttemptOutcome.exc "boom")
      (fun s : String => s) [(0, ["a"])]).1 (by decide)).1,
    ((cap_check_is_fail_fast String 5 3 (fun _ _ => AttemptOutcome.exc "boom")
      (fun s : String => s) [(0, ["a"])]).2 (by decide)).1⟩

theorem chunkAuxF_flatten (α : Type) (Bp s : ℕ) :
    ∀ (fuel : ℕ) (l : List α) (i : ℕ), l.length ≤ fuel →
      ((chunkAuxF Bp s fuel i l).map Prod.snd).flatten = l
  | 0, l, _, h => by
    have hl : l = [] := List.eq_nil_of_length_eq_zero (by omega)
    subst hl
    rfl
  | _+1, [], _, _ => rfl
  | fuel+1, x :: xs, i, h => by
    have hrec := chunkAuxF_flatten α Bp s fuel (xs.drop Bp) (i + (Bp + 1))
      (by simp only [List.length_drop]; simp at h; omega)
    simp only [chunkAuxF, List.map_cons, List.flatten_cons, hrec, List.take_succ_cons]
    rw [List.cons_append, List.take_append_drop]

theorem chunkAuxF_length (α : Type) (Bp s : ℕ) :
    ∀ (fuel : ℕ) (l : List α) (i : ℕ), l.length ≤ fuel →
      (chunkAuxF Bp s fuel i l).length = (l.length + Bp) / (Bp + 1)
  | 0, l, _, h => by
    have hl : l = [] := List.eq_nil_of_length_eq_zero (by omega)
    subst hl
    simp [chunkAuxF, Nat.div_eq_of_lt (by omega : Bp < Bp + 1)]
  | _+1, [], _, _ => by
    simp [chunkAuxF, Nat.div_eq_of_lt (by omega : Bp < Bp + 1)]
  | fuel+1, x :: xs, i, h => by
    have hx : xs.length ≤ fuel := by simp at h; omega
    have hrec := chunkAuxF_length α Bp s fuel (xs.drop Bp) (i + (Bp + 1))
      (by simp only [List.length_drop]; omega)
    simp only [chunkAuxF, List.length_cons, hrec, List.length_drop]
    by_cases hB : Bp ≤ xs.length
    · have h1 : xs.length - Bp + Bp = xs.length := by omega
      have h2 : xs.length + 1 + Bp = xs.length + (Bp + 1) := by omega
      rw [h1, h2, Nat.add_div_right _ (by omega)]
    · have h1 : xs.length - Bp + Bp = Bp := by omega
      have h2 : xs.length + 1 + Bp = xs.length + (Bp + 1) := by omega
      rw [h1, h2, Nat.add_div_right _ (by omega),
        Nat.div_eq_of_lt (by omega : Bp < Bp + 1),
        Nat.div_eq_of_lt (by omega : xs.length < Bp + 1)]

theorem chunkAuxF_indices (α : Type) (Bp s : ℕ) :
    ∀ (fuel : ℕ) (l : List α) (i : ℕ), l.length ≤ fuel →
      (chunkAuxF Bp s fuel i l).map Prod.fst
        = (List.range (chunkAuxF Bp s fuel i l).length).map (fun k => i + s + k * (Bp + 1))
  | 0, l, _, h => by
    have hl : l = [] := List.eq_nil_of_length_eq_zero (by omega)
    subst hl
    rfl
  | _+1, [], _, _ => rfl
  | fuel+1, x :: xs, i, h => by
    have hrec := chunkAuxF_indices α Bp s fuel (xs.drop Bp) (i + (Bp + 1))
      (by simp only [List.length_drop]; simp at h; omega)
    simp only [chunkAuxF, List.map_cons, List.length_cons, hrec]
    rw [List.range_succ_eq_map]
    simp only [List.map_cons, List.map_map, Function.comp]
    refine congrArg₂ List.cons (by ring) ?_
    exact List.map_congr_left (fun k _ => by
      simp only [Function.comp_apply, Nat.succ_eq_add_one]
      ring)

/-- C3: for every batch size `B ≥ 1`, start offset and optional record cap, batch
building over the sliced input yields exactly `ceil(N / B)` batches whose start indices
are `start + i * B` and whose members partition the sliced input exactly once in
original order; concretely, 25 lines with `B = 10` give start indices 0, 10, 20, and
`start = 5, max = 12` slices lines 5..16 and gives batches of sizes 10 and 2 at start
indices 5 and 15. -/
theorem batch_building_partitions :
    (∀ (α : Type) (B start : ℕ) (maxRecords : Option ℕ) (lines : List α), 1 ≤ B →
      (chunkBatches B start (sliceLines start maxRecords lines)).length
          = ((sliceLines start maxRecords lines).length + B - 1) / B
      ∧ (chunkBatches B start (sliceLines start maxRecords lines)).map Prod.fst
          = (List.range
              (chunkBatches B start (sliceLines start maxRecords lines)).length).map
              (fun k => start + k * B)
      ∧ ((chunkBatches B start (sliceLines start maxRecords lines)).map Prod.snd).flatten
          = sliceLines start maxRecords lines)
    ∧ (chunkBatches 10 0 (sliceLines 0 none (List.range 25))).map Prod.fst = [0, 10, 20]
    ∧ sliceLines 5 (some 12) (List.range 25) = [5, 6, 7, 8, 9, 10, 11, 12, 13, 14, 15, 16]
    ∧ (chunkBatches 10 5 (sliceLines 5 (some 12) (List.range 25))).map
        (fun b => (b.1, b.2.length)) = [(5, 10), (15, 2)] := by
  refine ⟨?_, by decide, by decide, by decide⟩
  intro α B start maxr lines hB
  obtain ⟨Bp, rfl⟩ : ∃ Bp, B = Bp + 1 := ⟨B - 1, by omega⟩
  refine ⟨?_, ?_, ?_⟩
  · have h := chunkAuxF_length α Bp start (sliceLines start maxr lines).length
      (sliceLines start maxr lines) 0 (le_refl _)
    have h2 : (sliceLines start maxr lines).length + (Bp + 1) - 1
        = (sliceLines start maxr lines).length + Bp := by omega
    rw [chunkBatches, h, h2]
  · have h := chunkAuxF_indices α Bp start (sliceLines start maxr lines).length
      (sliceLines start maxr lines) 0 (le_refl _)
    rw [chunkBatches] at *
    simpa using h
  · have h := chunkAuxF_flatten α Bp start (sliceLines start maxr lines).length
      (sliceLines start maxr lines) 0 (le_refl _)
    rw [chunkBatches]
    exact h

/-- Witness for `batch_building_partitions` at `B = 10, start = 5, max = 12` over 25
lines. -/
theorem batch_building_partitions_witness :
    (chunkBatches 10 5 (sliceLines 5 (some 12) (List.range 25))).length
        = ((sliceLines 5 (some 12) (List.range 25)).length + 10 - 1) / 10
      ∧ (chunkBatches 10 5 (sliceLines 5 (some 12) (List.range 25))).map Prod.fst
        = (List.range
            (chunkBatches 10 5 (sliceLines 5 (some 12) (List.range 25))).length).map
            (fun k => 5 + k * 10)
      ∧ ((chunkBatches 10 5 (sliceLines 5 (some 12) (List.range 25))).map
          Prod.snd).flatten = sliceLines 5 (some 12) (List.range 25) :=
  batch_building_partitions.1 ℕ 10 5 (some 12) (List.range 25) (by decide)

/-- Modelled from the spec: the call/sleep trace §4.3 prescribes — one call per attempt,
each failed attempt followed by a `1 + attempt_number` second sleep before the next
attempt, a successful attempt ending the loop. -/
def specRetryEvents (outcomes : ℕ → AttemptOutcome) : ℕ → ℕ → List Event
  | 0, _ => []
  | rem+1, attempt =>
    if attemptFails (outcomes attempt) then
      Event.call attempt :: Event.sleep (1 + attempt)
        :: specRetryEvents outcomes rem (attempt + 1)
    else [Event.call attempt]

/-- The text of the most recent response among attempts
`attempt, attempt+1, ..., attempt+rem-1`, starting from `base` (the raw text captured
before this window, `none` at loop entry). -/
def lastRespFrom (outcomes : ℕ → AttemptOutcome) : Option String → ℕ → ℕ → Option String
  | base, _, 0 => base
  | base, attempt, rem+1 =>
    match outcomes attempt with
    | AttemptOutcome.resp t => lastRespFrom outcomes (some t) (attempt + 1) rem
    | AttemptOutcome.exc _ => lastRespFrom outcomes base (attempt + 1) rem

theorem retryAux_events (outcomes : ℕ → AttemptOutcome) :
    ∀ (rem attempt : ℕ) (st : LoopSt),
      (retryAux outcomes rem attempt st).2 = specRetryEvents outcomes rem attempt
  | 0, _, _ => rfl
  | rem+1, attempt, st => by
    have ih := retryAux_events outcomes rem (attempt + 1)
    cases ho : outcomes attempt with
    | resp t =>
      cases hps : parse_model_json t with
      | some v =>
        have hf : attemptFails (AttemptOutcome.resp t) = false := by
          simp [attemptFails, hps]
        simp [retryAux, specRetryEvents, ho, hps, hf]
      | none =>
        have hf : attemptFails (AttemptOutcome.resp t) = true := by
          simp [attemptFails, hps]
        simp [retryAux, specRetryEvents, ho, hps, hf, ih]
    | exc m =>
      have hf : attemptFails (AttemptOutcome.exc m) = true := rfl
      simp [retryAux, specRetryEvents, ho, hf, ih]

theorem specRetryEvents_calls_le (outcomes : ℕ → AttemptOutcome) :
    ∀ (rem attempt : ℕ),
      (specRetryEvents outcomes rem attempt).countP Event.isCall ≤ rem
  | 0, _ => le_refl _
  | rem+1, attempt => by
    by_cases hf : attemptFails (outcomes attempt)
    · have := specRetryEvents_calls_le outcomes rem (attempt + 1)
      simp [specRetryEvents, hf, List.countP_cons, Event.isCall]
      omega
    · simp [specRetryEvents, hf, List.countP_cons, Event.isCall]

theorem retryAux_all_fail (outcomes : ℕ → AttemptOutcome) :
    ∀ (rem attempt : ℕ) (st : LoopSt), st.parsed = none →
      (∀ a, attempt ≤ a → a < attempt + rem → attemptFails (outcomes a) = true) →
      (retryAux outcomes rem attempt st).1.parsed = none
      ∧ (retryAux outcomes rem attempt st).1.response_text
          = lastRespFrom outcomes st.response_text attempt rem
      ∧ (retryAux outcomes rem attempt st).1.error_msg
          = (if rem = 0 then st.error_msg
             else some (failMsg (outcomes (attempt + rem - 1))))
  | 0, attempt, st, hparsed, _ => ⟨hparsed, rfl, by simp [retryAux]⟩
  | rem+1, attempt, st, hparsed, hfail => by
    have hf : attemptFails (outcomes attempt) = true :=
      hfail attempt (le_refl _) (by omega)
    cases ho : outcomes attempt with
    | resp t =>
      have hpn : parse_model_json t = none := by
        rw [ho] at hf
        simpa [attemptFails, Option.isNone_iff_eq_none] using hf
      obtain ⟨ih1, ih2, ih3⟩ := retryAux_all_fail outcomes rem (attempt + 1)
        { response_text := some t, parsed := parse_model_json t,
          error_msg := some "parse_error" }
        (by simp [hpn])
        (fun a ha1 ha2 => hfail a (by omega) (by omega))
      refine ⟨?_, ?_, ?_⟩
      · simpa [retryAux, ho, hpn] using ih1
      · rw [show (retryAux outcomes (rem+1) attempt st).1
            = (retryAux outcomes rem (attempt + 1)
                { response_text := some t, parsed := parse_model_json t,
                  error_msg := some "parse_error" }).1 by simp [retryAux, ho, hpn]]
        rw [ih2]
        simp [lastRespFrom, ho]
      · rw [show (retryAux outcomes (rem+1) attempt st).1
            = (retryAux outcomes rem (attempt + 1)
                { response_text := some t, parsed := parse_model_json t,
                  error_msg := some "parse_error" }).1 by simp [retryAux, ho, hpn]]
        rw [ih3]
        by_cases hr : rem = 0
        · subst hr
          simp [ho, failMsg]
        · have harith : attempt + 1 + rem - 1 = attempt + (rem + 1) - 1 := by omega
          rw [if_neg hr, if_neg (by omega), harith]
    | exc m =>
      obtain ⟨ih1, ih2, ih3⟩ := retryAux_all_fail outcomes rem (attempt + 1)
        { st with error_msg := some ("exception: " ++ m) }
        (by simpa using hparsed)
        (fun a ha1 ha2 => hfail a (by omega) (by omega))
      refine ⟨?_, ?_, ?_⟩
      · simpa [retryAux, ho] using ih1
      · rw [show (retryAux outcomes (rem+1) attempt st).1
            = (retryAux outcomes rem (attempt + 1)
                { st with error_msg := some ("exception: " ++ m) }).1 by
            simp [retryAux, ho]]
        rw [ih2]
        simp [lastRespFrom, ho]
      · rw [show (retryAux outcomes (rem+1) attempt st).1
            = (retryAux outcomes rem (attempt + 1)
                { st with error_msg := some ("exception: " ++ m) }).1 by
            simp [retryAux, ho]]
        rw [ih3]
        by_cases hr : rem = 0
        · subst hr
          simp [ho, failMsg]
        · have harith : attempt + 1 + rem - 1 = attempt + (rem + 1) - 1 := by omega
          rw [if_neg hr, if_neg (by omega), harith]

theorem failMsg_ne_empty (o : AttemptOutcome) : failMsg o ≠ "" := by
  cases o with
  | resp t => simp [failMsg]
  | exc m =>
    simp only [failMsg]
    intro h
    have := congrArg String.data h
    simp [String.data_append] at this

/-- C4: per batch the retry loop makes at most `max_retries` call attempts and its
call/sleep trace is exactly the spec's policy (each failed attempt is followed by a
`1 + attempt_number` second sleep before the next attempt); when every attempt fails the
record is still produced, with `model_parsed` null and `model_raw` the last captured raw
response text or, failing that, the last error text; and a batch whose three attempts
all raise transport errors under `max_retries = 3` yields exactly that, while dispatch
still produces a record for every batch (the pipeline does not abort). -/
theorem process_batch_retry_policy :
    (∀ (α : Type) (maxRetries : ℕ) (outcomes : ℕ → AttemptOutcome) (pid : α → String)
      (idx : ℕ) (items : List α),
      ((process_batch maxRetries outcomes pid idx items).2
          = specRetryEvents outcomes maxRetries 1)
      ∧ ((process_batch maxRetries outcomes pid idx items).2.countP Event.isCall
          ≤ maxRetries)
      ∧ ((∀ a, 1 ≤ a → a ≤ maxRetries → attemptFails (outcomes a) = true) →
          (process_batch maxRetries outcomes pid idx items).1.model_parsed = none
          ∧ (1 ≤ maxRetries →
            (process_batch maxRetries outcomes pid idx items).1.model_raw
              = pyOrStr (lastRespFrom outcomes none 1 maxRetries)
                  (some (failMsg (outcomes maxRetries))))))
    ∧ ((process_batch 3 (fun _ => AttemptOutcome.exc "connection error")
        (fun s : String => s) 0 ["x"]).1.model_parsed = none
      ∧ (process_batch 3 (fun _ => AttemptOutcome.exc "connection error")
          (fun s : String => s) 0 ["x"]).1.model_raw
          = some "exception: connection error")
    ∧ (dispatchAll 3 (fun _ _ => AttemptOutcome.exc "connection error")
        (fun s : String => s) [(0, ["a"]), (10, ["b"])]).1.length = 2 := by
  refine ⟨?_, ⟨rfl, rfl⟩, rfl⟩
  intro α m outcomes pid idx items
  refine ⟨?_, ?_, ?_⟩
  · simp only [process_batch]
    exact retryAux_events outcomes m 1 ⟨none, none, none⟩
  · simp only [process_batch]
    rw [retryAux_events outcomes m 1 ⟨none, none, none⟩]
    exact specRetryEvents_calls_le outcomes m 1
  · intro hfail
    obtain ⟨h1, h2, h3⟩ := retryAux_all_fail outcomes m 1 ⟨none, none, none⟩ rfl
      (fun a ha1 ha2 => hfail a ha1 (by omega))
    constructor
    · simpa [process_batch] using h1
    · intro hm
      rw [if_neg (by omega)] at h3
      have harith : 1 + m - 1 = m := by omega
      rw [harith] at h3
      simp only [process_batch]
      rw [h1, h2, h3]
      simp [optTruthy, failMsg_ne_empty (outcomes m)]

/-- Witness for `process_batch_retry_policy`: three consecutive transport failures with
`max_retries = 3` leave `model_parsed` null and `model_raw` equal to the last error
text. -/
theorem process_batch_retry_policy_witness :
    (process_batch 3 (fun _ => AttemptOutcome.exc "boom") (fun s : String => s) 0
        ["x"]).1.model_parsed = none
    ∧ (process_batch 3 (fun _ => AttemptOutcome.exc "boom") (fun s : String => s) 0
        ["x"]).1.model_raw
      = pyOrStr (lastRespFrom (fun _ => AttemptOutcome.exc "boom") none 1 3)
          (some (failMsg (AttemptOutcome.exc "boom"))) := by
  have h := (process_batch_retry_policy.1 String 3 (fun _ => AttemptOutcome.exc "boom")
    (fun s => s) 0 ["x"]).2.2 (fun a _ _ => rfl)
  exact ⟨h.1, h.2 (by omega)⟩


/-- The eviction loop of `wait_for_slot` (classify_openalex_glm.py lines 223-225):
`while call_timestamps and now - call_timestamps[0] > 60: popleft()` — drop leading
timestamps more than 60 seconds old. -/
def evictOld (now : ℚ) (q : List ℚ) : List ℚ :=
  q.dropWhile (fun s => decide (now - s > 60))

/-- One attempt of `wait_for_slot` under the limiter lock (lines 219-229): evict old
timestamps, then admit — record `now` and return — exactly when fewer than `cap`
timestamps remain in the trailing window; a blocked caller sleeps 200ms and retries
(the retry shows up as a later attempt in the schedule). -/
def limiterStep (cap : ℕ) (now : ℚ) (q : List ℚ) : Bool × List ℚ :=
  let q' := evictOld now q
  if q'.length < cap then (true, q' ++ [now]) else (false, q')

/-- A whole run of the rate limiter: `sched` is the nondecreasing sequence of `now`
readings of all lock-holding attempts, across every worker thread — the mutex
serializes the check-and-record regions, which is what makes the concurrent execution
this single sequential trace.  The first component collects the admitted timestamps in
order, the second is the final deque. -/
def runLimiter (cap : ℕ) : List ℚ → List ℚ → List ℚ × List ℚ
  | [], q => ([], q)
  | now :: rest, q =>
    let s := limiterStep cap now q
    let r := runLimiter cap rest s.2
    (if s.1 then now :: r.1 else r.1, r.2)

theorem runLimiter_local (cap : ℕ) :
    ∀ (sched : List ℚ), sched.Pairwise (· ≤ ·) →
    ∀ (hist q ev : List ℚ),
      hist = ev ++ q →
      hist.Pairwise (· ≤ ·) →
      (∀ a ∈ ev, ∀ t ∈ sched, a < t - 60) →
      (∀ a ∈ hist, ∀ t ∈ sched, a ≤ t) →
      (hist ++ (runLimiter cap sched q).1).Pairwise (· ≤ ·)
      ∧ ∀ pfx x sfx, (runLimiter cap sched q).1 = pfx ++ x :: sfx →
          ((hist ++ pfx) ++ [x]).countP (fun a => decide (x - 60 ≤ a)) ≤ cap
  | [], _, hist, q, ev, hsplit, hPW, hev, hhs => by
    refine ⟨by simpa [runLimiter] using hPW, ?_⟩
    intro pfx x sfx h
    cases pfx <;> simp [runLimiter] at h
  | now :: rest, hsched, hist, q, ev, hsplit, hPW, hev, hhs => by
    have hnow : ∀ t ∈ rest, now ≤ t := (List.pairwise_cons.mp hsched).1
    have hrest : rest.Pairwise (· ≤ ·) := (List.pairwise_cons.mp hsched).2
    have hqsplit : q.takeWhile (fun s => decide (now - s > 60)) ++ evictOld now q = q :=
      List.takeWhile_append_dropWhile _ q
    have hdroppedOld : ∀ a ∈ q.takeWhile (fun s => decide (now - s > 60)),
        a < now - 60 := by
      intro a ha
      have h := List.mem_takeWhile_imp ha
      simp only [decide_eq_true_eq] at h
      linarith
    have hevOldNow : ∀ a ∈ ev, a < now - 60 :=
      fun a ha => hev a ha now (List.mem_cons_self now rest)
    have hhistNow : ∀ a ∈ hist, a ≤ now :=
      fun a ha => hhs a ha now (List.mem_cons_self now rest)
    have hsplit' : hist
        = (ev ++ q.takeWhile (fun s => decide (now - s > 60))) ++ evictOld now q := by
      rw [hsplit]
      conv_lhs => rw [← hqsplit]
      rw [← List.append_assoc]
    have hevD : ∀ a ∈ ev ++ q.takeWhile (fun s => decide (now - s > 60)),
        ∀ t ∈ rest, a < t - 60 := by
      intro a ha t ht
      have hnt := hnow t ht
      rcases List.mem_append.mp ha with ha1 | ha1
      · have := hev a ha1 t (List.mem_cons_of_mem now ht)
        linarith
      · have := hdroppedOld a ha1
        linarith
    by_cases hadm : (evictOld now q).length < cap
    · have hstep : limiterStep cap now q = (true, evictOld now q ++ [now]) := by
        simp [limiterStep, hadm]
      have hrun : runLimiter cap (now :: rest) q
          = (now :: (runLimiter cap rest (evictOld now q ++ [now])).1,
             (runLimiter cap rest (evictOld now q ++ [now])).2) := by
        simp [runLimiter, hstep]
      obtain ⟨ihPW, ihLoc⟩ := runLimiter_local cap rest hrest (hist ++ [now])
        (evictOld now q ++ [now]) (ev ++ q.takeWhile (fun s => decide (now - s > 60)))
        (by rw [hsplit']; simp [List.append_assoc])
        (List.pairwise_append.mpr ⟨hPW, by simp, by
          intro a ha b hb
          rw [List.mem_singleton] at hb
          subst hb
          exact hhistNow a ha⟩)
        hevD
        (by
          intro a ha t ht
          rcases List.mem_append.mp ha with ha1 | ha1
          · exact hhs a ha1 t (List.mem_cons_of_mem now ht)
          · rw [List.mem_singleton] at ha1
            subst ha1
            exact hnow t ht)
      constructor
      · rw [hrun]
        simpa [List.append_assoc] using ihPW
      · intro pfx x sfx h
        rw [hrun] at h
        cases pfx with
        | nil =>
          simp only [List.nil_append] at h
          injection h with he1 he2
          subst he1
          subst he2
          simp only [List.append_nil]
          rw [hsplit']
          simp only [List.countP_append]
          have h1 : (ev.countP (fun a => decide (now - 60 ≤ a))) = 0 :=
            List.countP_eq_zero.mpr (fun a ha => by
              simp only [decide_eq_true_eq]
              have := hevOldNow a ha
              exact not_le.mpr (by linarith))
          have h2 : ((q.takeWhile (fun s => decide (now - s > 60))).countP
              (fun a => decide (now - 60 ≤ a))) = 0 :=
            List.countP_eq_zero.mpr (fun a ha => by
              simp only [decide_eq_true_eq]
              have := hdroppedOld a ha
              exact not_le.mpr (by linarith))
          have h3 : ((evictOld now q).countP (fun a => decide (now - 60 ≤ a)))
              ≤ (evictOld now q).length := List.countP_le_length _
          have h4 : (([now].countP (fun a => decide (now - 60 ≤ a)))) = 1 := by
            simp [List.countP_cons, decide_eq_true (show now - 60 ≤ now by linarith)]
          omega
        | cons p pfx' =>
          rw [List.cons_append] at h
          injection h with he1 he2
          subst he1
          have := ihLoc pfx' x sfx he2
          rw [List.append_cons hist now pfx']
          exact this
    · have hstep : limiterStep cap now q = (false, evictOld now q) := by
        simp [limiterStep, hadm]
      have hrun : runLimiter cap (now :: rest) q
          = ((runLimiter cap rest (evictOld now q)).1,
             (runLimiter cap rest (evictOld now q)).2) := by
        simp [runLimiter, hstep]
      obtain ⟨ihPW, ihLoc⟩ := runLimiter_local cap rest hrest hist
        (evictOld now q) (ev ++ q.takeWhile (fun s => decide (now - s > 60)))
        hsplit' hPW hevD
        (fun a ha t ht => hhs a ha t (List.mem_cons_of_mem now ht))
      constructor
      · rw [hrun]
        exact ihPW
      · intro pfx x sfx h
        rw [hrun] at h
        exact ihLoc pfx x sfx h

theorem goodLocal_window (cap : ℕ) (A : List ℚ) :
    A.Pairwise (· ≤ ·) →
    (∀ pfx x sfx, A = pfx ++ x :: sfx →
      (pfx ++ [x]).countP (fun a => decide (x - 60 ≤ a)) ≤ cap) →
    ∀ w : ℚ, A.countP (fun a => decide (w ≤ a) && decide (a ≤ w + 60)) ≤ cap := by
  induction A using List.reverseRecOn with
  | nil =>
    intro _ _ w
    simp
  | append_singleton B x ih =>
    intro hPW hlocal w
    have hPWB : B.Pairwise (· ≤ ·) := hPW.sublist (List.sublist_append_left B [x])
    have hlocalB : ∀ pfx y sfx, B = pfx ++ y :: sfx →
        (pfx ++ [y]).countP (fun a => decide (y - 60 ≤ a)) ≤ cap := by
      intro pfx y sfx heq
      exact hlocal pfx y (sfx ++ [x]) (by rw [heq]; simp)
    have ihB := ih hPWB hlocalB w
    rw [List.countP_append]
    by_cases hx : (decide (w ≤ x) && decide (x ≤ w + 60)) = true
    · have hx' : w ≤ x ∧ x ≤ w + 60 := by simpa using hx
      have hloc := hlocal B x [] (by simp)
      have hmono : (B ++ [x]).countP (fun a => decide (w ≤ a) && decide (a ≤ w + 60))
          ≤ (B ++ [x]).countP (fun a => decide (x - 60 ≤ a)) := by
        apply List.countP_mono_left
        intro a _ ha
        have ha' : w ≤ a ∧ a ≤ w + 60 := by simpa using ha
        simp only [decide_eq_true_eq]
        linarith [hx'.2, ha'.1]
      rw [← List.countP_append]
      exact le_trans hmono hloc
    · have hx0 : ([x].countP (fun a => decide (w ≤ a) && decide (a ≤ w + 60))) = 0 :=
        List.countP_eq_zero.mpr (fun a ha => by
          rw [List.mem_singleton] at ha
          subst ha
          exact fun hc => hx hc)
      omega

/-- C1: for every nondecreasing schedule of `wait_for_slot` attempts with cap `cap`
calls per minute, and every instant `w`, at most `cap` admitted calls lie in the closed
60-second window `[w, w + 60]` — no 60-second sliding window of real time ever contains
more than `cap` admissions. -/
theorem rate_limiter_window_bound :
    ∀ (cap : ℕ) (sched : List ℚ), List.Chain' (· ≤ ·) sched →
      ∀ w : ℚ, ((runLimiter cap sched []).1.countP
        (fun a => decide (w ≤ a) && decide (a ≤ w + 60))) ≤ cap := by
  intro cap sched hchain w
  have hpw : sched.Pairwise (· ≤ ·) := List.chain'_iff_pairwise.mp hchain
  obtain ⟨hPW, hlocal⟩ := runLimiter_local cap sched hpw [] [] [] rfl
    (by simp) (by simp) (by simp)
  refine goodLocal_window cap (runLimiter cap sched []).1 (by simpa using hPW) ?_ w
  intro pfx x sfx h
  simpa using hlocal pfx x sfx h

/-- Witness for `rate_limiter_window_bound`: with cap 1 and attempts at times 0, 30
and 70 (the attempt at 30 blocks), the window `[0, 60]` holds at most one admission. -/
theorem rate_limiter_window_bound_witness :
    ((runLimiter 1 [0, 30, 70] []).1.countP
      (fun a => decide ((0 : ℚ) ≤ a) && decide (a ≤ 0 + 60))) ≤ 1 :=
  rate_limiter_window_bound 1 [0, 30, 70] (by norm_num [List.chain'_cons]) 0
